import Mathlib

/-!
Shallow embedding of `zebrad/src/commands/start.rs` (the `start` subcommand's
sync engine, `Core`) for verification.

Modelling conventions:
* Machine integers (`usize`) are `Nat`; the counters involved stay far below
  2^64, and the source performs no wrapping arithmetic on them.
* Asynchronous services are environment oracles passed as functions:
  - a discovery call's outcome (through the retry adapter) is an
    `Except Error Response` supplied per loop iteration;
  - issuing a fetch (`peer_set.ready_and()` then `.call(...)`) is an oracle
    from the chunk to `Except Error (Except Error Response)`: the outer
    `Except` is the synchronous readiness failure (fatal in the source), the
    inner one is the eventual resolution of the returned future;
  - the state service (`ready_and()` + `call(AddBlock)`) is an oracle from a
    block to a `StateOutcome`.
* `FuturesUnordered` yields completed futures in completion order; the model
  fixes an arbitrary completion order by keeping the in-flight pool as a list
  processed front-first.  All theorems quantify over the pool's contents, so
  they cover every completion order.
* A Rust panic (`unwrap`, `unreachable!`) is modelled as an explicit
  `panicked` outcome / `none` result.
* `eyre!` / `wrap_err` error wrapping is modelled as the identity on an
  opaque `Error` type.
-/

deriving instance DecidableEq for Except

/-- Opaque error type (`Box<dyn std::error::Error + ...>` / `Report`). -/
abbrev Error := String

/-- `zebra_chain::block::BlockHeaderHash`: a 32-byte block hash. -/
structure BlockHeaderHash where
  bytes : List Nat
deriving DecidableEq, Repr

/-- The `GENESIS` constant from `start.rs` (lines 35-38). -/
def GENESIS : BlockHeaderHash :=
  ⟨[8, 206, 61, 151, 49, 176, 0, 192, 131, 56, 69, 92, 138, 74, 107, 208,
    93, 161, 110, 38, 177, 29, 170, 27, 145, 113, 132, 236, 232, 15, 4, 0]⟩

/-- `zebra_chain::types::BlockHeight`: a chain height. -/
structure BlockHeight where
  height : Nat
deriving DecidableEq, Repr

/-- Modelled from the spec: a full block, as consumed by the engine.  The
source only uses `block.coinbase_height()`, an *optional* height defined in
`zebra-chain` (outside this repository); the spec's data model says blocks
carry a height position, and the `Option` shape is visible from the
`.unwrap()` at `start.rs:224`. -/
structure Block where
  coinbaseHeight : Option BlockHeight
deriving DecidableEq, Repr

/-- The `zebra_network::Response` variants the engine consumes:
`BlockHeaderHashes`, `Blocks`, and everything else (e.g. `Nil`) collapsed
into `nil` since the engine treats every other variant uniformly. -/
inductive Response where
  | blockHeaderHashes (hashes : List BlockHeaderHash)
  | blocks (bs : List Block)
  | nil
deriving DecidableEq, Repr

/-- Outcome of one `state.ready_and().await` / `.call(AddBlock).await`
round-trip: the readiness check can fail, the call can fail, or both
succeed (the `zebra_state::Response` ack value is ignored by the source). -/
inductive StateOutcome where
  | readyErr (e : Error)
  | callErr (e : Error)
  | ok
deriving DecidableEq, Repr

/-- One entry of the in-flight pool (`block_requests : FuturesUnordered`):
the chunk of hashes it was issued for, and the resolution the future will
eventually produce. -/
structure InFlight where
  requestedHashes : List BlockHeaderHash
  resolution : Except Error Response
deriving DecidableEq, Repr

/-- The sync engine's owned state (`struct Core`, `start.rs:121-132`), minus
the service handles, which are passed as oracles to each operation. -/
structure Core where
  tip : BlockHeaderHash
  block_requests : List InFlight
  requested_block_heights : Nat
  downloaded_block_heights : Finset BlockHeight
deriving DecidableEq

/-- The engine state built by `StartCmd::start` (`start.rs:66-77`): genesis
tip, empty pool, zero counter, and the height set seeded with
`BlockHeight(0)` before any network activity. -/
def initialCore : Core :=
  { tip := GENESIS
    block_requests := []
    requested_block_heights := 0
    downloaded_block_heights := insert ⟨0⟩ (∅ : Finset BlockHeight) }

/-- Result of `drain_requests`: the `Result<(), Report>` return value, plus
the fields of `self` it mutates (the pool and the height set). -/
structure DrainResult where
  res : Except Error Unit
  pool : List InFlight
  heights : Finset BlockHeight
deriving DecidableEq

/-- The `for block in blocks` body of `drain_requests` (`start.rs:222-232`):
insert `block.coinbase_height().unwrap()` into the height set, then await
state readiness and the `AddBlock` call, propagating either error.
`none` models the panic when a block has no coinbase height. -/
def process_blocks (st : Block → StateOutcome) :
    List Block → Finset BlockHeight → Option (Except Error Unit × Finset BlockHeight)
  | [], heights => some (.ok (), heights)
  | b :: rest, heights =>
    match b.coinbaseHeight with
    | none => none
    | some h =>
      let heights' := insert h heights
      match st b with
      | .readyErr e => some (.error e, heights')
      | .callErr e => some (.error e, heights')
      | .ok => process_blocks st rest heights'

/-- `Core::drain_requests` (`start.rs:212-242`): while the pool holds more
than `request_goal` operations, await the next completion (front of the
list).  A fetch error is logged and dropped; a `Blocks` response is
committed block-by-block via `process_blocks` (a state-service error aborts
with the pool already shrunk); any other response is skipped.  The
`.expect("block_requests is never empty")` cannot fire: an empty pool has
length `0 ≤ request_goal`, so the loop has already exited. -/
def drain_requests (st : Block → StateOutcome) (request_goal : Nat) :
    List InFlight → Finset BlockHeight → Option DrainResult
  | [], heights => some ⟨.ok (), [], heights⟩
  | op :: rest, heights =>
    if (op :: rest).length ≤ request_goal then
      some ⟨.ok (), op :: rest, heights⟩
    else
      match op.resolution with
      | .ok (.blocks bs) =>
        match process_blocks st bs heights with
        | none => none
        | some (.error e, heights') => some ⟨.error e, rest, heights'⟩
        | some (.ok _, heights') => drain_requests st request_goal rest heights'
      | .ok _ => drain_requests st request_goal rest heights
      | .error _ => drain_requests st request_goal rest heights

/-- Rust `slice::chunks(n)` for `n > 0`: split into consecutive chunks of
size `n`, the last possibly shorter.  (The source only calls it with
`n = 10`; `chunks(0)` panics in Rust, here the `n = 0` guard just stops.) -/
def chunksOf (n : Nat) (l : List α) : List (List α) :=
  match l, n with
  | [], _ => []
  | _ :: _, 0 => []
  | x :: xs, m + 1 => (x :: xs).take (m + 1) :: chunksOf (m + 1) ((x :: xs).drop (m + 1))
termination_by l.length
decreasing_by
  simp only [List.length_drop, List.length_cons]
  omega

/-- The chunk loop of `Core::request_blocks`: for each chunk, await peer-set
readiness (outer `Except`; an error is fatal) and push the issued request's
future onto the pool. -/
def request_blocks_go (issue : List BlockHeaderHash → Except Error (Except Error Response)) :
    List (List BlockHeaderHash) → Core → Except Error Core
  | [], c => .ok c
  | chunk :: rest, c =>
    match issue chunk with
    | .error e => .error e
    | .ok res =>
      request_blocks_go issue rest
        { c with block_requests := c.block_requests ++ [⟨chunk, res⟩] }

/-- `Core::request_blocks` (`start.rs:200-210`): partition the hashes into
chunks of 10 and issue one `BlocksByHash` fetch per chunk. -/
def request_blocks (issue : List BlockHeaderHash → Except Error (Except Error Response))
    (hashes : List BlockHeaderHash) (c : Core) : Except Error Core :=
  request_blocks_go issue (chunksOf 10 hashes) c

/-- The state change `next_hashes` performs on success (`start.rs:195`)
followed by the tip update in `run` (`start.rs:152`), given the returned
batch and its last hash. -/
def coreAfterDiscovery (c : Core) (hashes : List BlockHeaderHash)
    (t : BlockHeaderHash) : Core :=
  { c with
    requested_block_heights := c.requested_block_heights + hashes.length
    tip := t }

/-- Outcome of one iteration of the `run` loop body. -/
inductive StepResult where
  | ok (c : Core)
  | fatal (e : Error)
  | panicked
deriving DecidableEq

/-- One iteration of the `while` body of `Core::run` (`start.rs:150-159`):
`next_hashes` (a discovery error is fatal; a non-`BlockHeaderHashes`
response hits `unreachable!`, modelled as a panic; the counter is bumped by
the batch size), then `hashes.last().unwrap()` (panics on an empty batch)
sets the tip, then `request_blocks`, then `drain_requests(300)`. -/
def runStep (d : Except Error Response)
    (issue : List BlockHeaderHash → Except Error (Except Error Response))
    (st : Block → StateOutcome) (c : Core) : StepResult :=
  match d with
  | .error e => .fatal e
  | .ok (.blockHeaderHashes hashes) =>
    match hashes.getLast? with
    | none => .panicked
    | some t =>
      match request_blocks issue hashes (coreAfterDiscovery c hashes t) with
      | .error e => .fatal e
      | .ok c2 =>
        match drain_requests st 300 c2.block_requests c2.downloaded_block_heights with
        | none => .panicked
        | some dr =>
          match dr.res with
          | .error e => .fatal e
          | .ok _ =>
            .ok { c2 with block_requests := dr.pool,
                          downloaded_block_heights := dr.heights }
  | .ok _ => .panicked

/-- The hash batch carried by a discovery resolution (ghost accessor used
only to report which batches a run consumed). -/
def discBatch : Except Error Response → List BlockHeaderHash
  | .ok (.blockHeaderHashes hashes) => hashes
  | _ => []

/-- Outcome of `Core::run`, with the list of discovery batches consumed by
the active phase recorded as a ghost trace.  `finished` is the state after
the final `drain_requests(0)`, at the `eternity.await` point (the source
never returns past it); `outOfEnv` is a model artifact: the supplied
environment trace ended while the loop was still active. -/
inductive RunOutcome where
  | finished (c : Core) (batches : List (List BlockHeaderHash))
  | fatal (e : Error)
  | panicked
  | outOfEnv (c : Core) (batches : List (List BlockHeaderHash))
deriving DecidableEq

/-- The code after the active phase of `Core::run` (`start.rs:161-166`):
the final `drain_requests(0)`, then `eternity.await` (the engine idles
forever; `finished` marks reaching that point). -/
def runFinal (st : Block → StateOutcome) (c : Core) : RunOutcome :=
  match drain_requests st 0 c.block_requests c.downloaded_block_heights with
  | none => .panicked
  | some dr =>
    match dr.res with
    | .error e => .fatal e
    | .ok _ =>
      .finished { c with block_requests := dr.pool,
                         downloaded_block_heights := dr.heights } []

/-- `Core::run` (`start.rs:147-167`): while `requested_block_heights <
700_000`, run one loop iteration against the next discovery resolution in
`envs`; once the gate fails, perform the final `drain_requests(0)` and idle
forever. -/
def runLoop (issue : List BlockHeaderHash → Except Error (Except Error Response))
    (st : Block → StateOutcome) :
    List (Except Error Response) → Core → RunOutcome
  | [], c =>
    if c.requested_block_heights < 700000 then .outOfEnv c [] else runFinal st c
  | d :: rest, c =>
    if c.requested_block_heights < 700000 then
      match runStep d issue st c with
      | .panicked => .panicked
      | .fatal e => .fatal e
      | .ok c' =>
        match runLoop issue st rest c' with
        | .finished cf bs => .finished cf (discBatch d :: bs)
        | .outOfEnv cf bs => .outOfEnv cf (discBatch d :: bs)
        | other => other
    else runFinal st c

/-! ### Concrete environments used by the witness theorems -/

/-- A state service that always acknowledges. -/
def stWOk : Block → StateOutcome := fun _ => .ok

/-- A state service whose `AddBlock` call always fails. -/
def stWErr : Block → StateOutcome := fun _ => .callErr "commit failed"

/-- A peer set that accepts every fetch, each of which later resolves with a
fetch error. -/
def issueW : List BlockHeaderHash → Except Error (Except Error Response) :=
  fun _ => .ok (.error "peer disconnect")

/-- An in-flight operation that resolves with a fetch error. -/
def opErrW : InFlight := ⟨[], .error "peer disconnect"⟩

/-- An engine state one hash short of the 700 000 gate. -/
def coreNearGoalW : Core :=
  { initialCore with requested_block_heights := 699999 }

/-- A single-iteration discovery environment: one batch `[GENESIS]`. -/
def envW : List (Except Error Response) := [.ok (.blockHeaderHashes [GENESIS])]

/-- The state `runLoop issueW stWOk envW coreNearGoalW` finishes in. -/
def cFinalW : Core :=
  { tip := GENESIS
    block_requests := []
    requested_block_heights := 700000
    downloaded_block_heights := insert ⟨0⟩ (∅ : Finset BlockHeight) }

/-- The state one `runStep` on the batch `[GENESIS]` leaves
`coreNearGoalW` in. -/
def cStepW : Core :=
  { tip := GENESIS
    block_requests := [⟨[GENESIS], .error "peer disconnect"⟩]
    requested_block_heights := 700000
    downloaded_block_heights := insert ⟨0⟩ (∅ : Finset BlockHeight) }

/-- The state `request_blocks issueW` on 25 hashes leaves `initialCore` in:
three fetches (10, 10, 5) appended to the pool. -/
def c4W : Core :=
  { tip := GENESIS
    block_requests :=
      [⟨List.replicate 10 GENESIS, .error "peer disconnect"⟩,
       ⟨List.replicate 10 GENESIS, .error "peer disconnect"⟩,
       ⟨List.replicate 5 GENESIS, .error "peer disconnect"⟩]
    requested_block_heights := 0
    downloaded_block_heights := insert ⟨0⟩ (∅ : Finset BlockHeight) }

/-! ### Helper lemmas -/

theorem chunksOf_flatten (n : Nat) (l : List α) :
    0 < n → (chunksOf n l).flatten = l := by
  induction n, l using chunksOf.induct with
  | case1 n => intro _; simp [chunksOf]
  | case2 x xs => intro h; exact absurd h (by omega)
  | case3 x xs m ih =>
    intro _
    rw [chunksOf]
    simp only [List.flatten_cons]
    rw [ih (Nat.succ_pos m)]
    exact List.take_append_drop _ _

theorem chunksOf_mem_length (n : Nat) (l : List α) :
    ∀ ch ∈ chunksOf n l, ch.length ≤ n := by
  induction n, l using chunksOf.induct with
  | case1 n => simp [chunksOf]
  | case2 x xs => simp [chunksOf]
  | case3 x xs m ih =>
    intro ch hch
    rw [chunksOf] at hch
    rcases List.mem_cons.mp hch with h | h
    · subst h
      rw [List.length_take]
      exact min_le_left _ _
    · exact ih ch h

theorem chunksOf_length (n : Nat) (l : List α) :
    0 < n → (chunksOf n l).length = (l.length + n - 1) / n := by
  induction n, l using chunksOf.induct with
  | case1 n =>
    intro hn
    rw [chunksOf]
    simp only [List.length_nil, Nat.zero_add]
    rw [Nat.div_eq_of_lt (by omega)]
  | case2 x xs => intro h; exact absurd h (by omega)
  | case3 x xs m ih =>
    intro _
    rw [chunksOf, List.length_cons, ih (Nat.succ_pos m)]
    simp only [List.length_drop, List.length_cons]
    have hL : xs.length + 1 + (m + 1) - 1 = xs.length + (m + 1) := by omega
    rw [hL, Nat.add_div_right _ (Nat.succ_pos m)]
    have key : (xs.length + 1 - (m + 1) + (m + 1) - 1) / (m + 1) = xs.length / (m + 1) := by
      rcases le_or_lt m xs.length with hm | hm
      · have he : xs.length + 1 - (m + 1) + (m + 1) - 1 = xs.length := by omega
        rw [he]
      · have he : xs.length + 1 - (m + 1) + (m + 1) - 1 = m := by omega
        rw [he, Nat.div_eq_of_lt (by omega), Nat.div_eq_of_lt (by omega)]
    rw [key]

theorem request_blocks_go_ok
    (issue : List BlockHeaderHash → Except Error (Except Error Response))
    (chunks : List (List BlockHeaderHash)) (c c' : Core)
    (h : request_blocks_go issue chunks c = .ok c') :
    ∃ news : List InFlight,
      c'.block_requests = c.block_requests ++ news ∧
      news.map InFlight.requestedHashes = chunks ∧
      c'.tip = c.tip ∧
      c'.requested_block_heights = c.requested_block_heights ∧
      c'.downloaded_block_heights = c.downloaded_block_heights := by
  induction chunks generalizing c with
  | nil =>
    rw [request_blocks_go] at h
    cases h
    exact ⟨[], by simp, rfl, rfl, rfl, rfl⟩
  | cons chunk rest ih =>
    rw [request_blocks_go] at h
    cases hi : issue chunk with
    | error e => rw [hi] at h; exact absurd h (by simp)
    | ok res =>
      rw [hi] at h
      obtain ⟨news, h1, h2, h3, h4, h5⟩ := ih _ h
      refine ⟨⟨chunk, res⟩ :: news, ?_, ?_, h3, h4, h5⟩
      · rw [h1]; simp
      · simp [h2]

theorem process_blocks_heights_mono (st : Block → StateOutcome)
    (bs : List Block) (heights : Finset BlockHeight)
    (r : Except Error Unit) (heights' : Finset BlockHeight)
    (h : process_blocks st bs heights = some (r, heights')) :
    heights ⊆ heights' := by
  induction bs generalizing heights with
  | nil =>
    rw [process_blocks] at h
    cases h
    exact Finset.Subset.refl _
  | cons b rest ih =>
    rw [process_blocks] at h
    cases hcb : b.coinbaseHeight with
    | none => rw [hcb] at h; exact absurd h (by simp)
    | some ht =>
      rw [hcb] at h
      cases hst : st b with
      | readyErr e =>
        rw [hst] at h; cases h
        exact Finset.subset_insert _ _
      | callErr e =>
        rw [hst] at h; cases h
        exact Finset.subset_insert _ _
      | ok =>
        rw [hst] at h
        exact (Finset.subset_insert _ _).trans (ih _ h)

theorem drain_requests_suffix (st : Block → StateOutcome) (goal : Nat)
    (pool : List InFlight) (heights : Finset BlockHeight) (dr : DrainResult)
    (h : drain_requests st goal pool heights = some dr) :
    dr.pool <:+ pool := by
  induction pool generalizing heights with
  | nil =>
    rw [drain_requests] at h
    cases h
    exact List.nil_suffix
  | cons op rest ih =>
    rw [drain_requests] at h
    by_cases hlen : (op :: rest).length ≤ goal
    · rw [if_pos hlen] at h
      cases h
      exact List.suffix_refl _
    · rw [if_neg hlen] at h
      cases hres : op.resolution with
      | error e =>
        simp only [hres] at h
        exact (ih _ h).trans (List.suffix_cons op rest)
      | ok resp =>
        cases resp with
        | blocks bs =>
          simp only [hres] at h
          cases hp : process_blocks st bs heights with
          | none => simp only [hp] at h; exact absurd h (by simp)
          | some pr =>
            obtain ⟨pres, ph⟩ := pr
            simp only [hp] at h
            cases pres with
            | error e =>
              cases h
              exact List.suffix_cons op rest
            | ok u =>
              exact (ih _ h).trans (List.suffix_cons op rest)
        | blockHeaderHashes hs =>
          simp only [hres] at h
          exact (ih _ h).trans (List.suffix_cons op rest)
        | nil =>
          simp only [hres] at h
          exact (ih _ h).trans (List.suffix_cons op rest)

theorem drain_requests_ok_length (st : Block → StateOutcome) (goal : Nat)
    (pool : List InFlight) (heights : Finset BlockHeight) (dr : DrainResult)
    (h : drain_requests st goal pool heights = some dr) (hok : dr.res = .ok ()) :
    dr.pool.length ≤ goal := by
  induction pool generalizing heights with
  | nil =>
    rw [drain_requests] at h
    cases h
    simp
  | cons op rest ih =>
    rw [drain_requests] at h
    by_cases hlen : (op :: rest).length ≤ goal
    · rw [if_pos hlen] at h
      cases h
      exact hlen
    · rw [if_neg hlen] at h
      cases hres : op.resolution with
      | error e =>
        simp only [hres] at h
        exact ih _ h
      | ok resp =>
        cases resp with
        | blocks bs =>
          simp only [hres] at h
          cases hp : process_blocks st bs heights with
          | none => simp only [hp] at h; exact absurd h (by simp)
          | some pr =>
            obtain ⟨pres, ph⟩ := pr
            simp only [hp] at h
            cases pres with
            | error e =>
              cases h
              exact absurd hok (by simp)
            | ok u =>
              exact ih _ h
        | blockHeaderHashes hs =>
          simp only [hres] at h
          exact ih _ h
        | nil =>
          simp only [hres] at h
          exact ih _ h

theorem drain_requests_ok_exact (st : Block → StateOutcome) (goal : Nat)
    (pool : List InFlight) (heights : Finset BlockHeight) (dr : DrainResult)
    (h : drain_requests st goal pool heights = some dr) (hok : dr.res = .ok ())
    (hge : goal ≤ pool.length) :
    dr.pool.length = goal := by
  induction pool generalizing heights with
  | nil =>
    rw [drain_requests] at h
    cases h
    simp only [List.length_nil] at hge ⊢
    omega
  | cons op rest ih =>
    rw [drain_requests] at h
    by_cases hlen : (op :: rest).length ≤ goal
    · rw [if_pos hlen] at h
      cases h
      show (op :: rest).length = goal
      omega
    · rw [if_neg hlen] at h
      have hge' : goal ≤ rest.length := by
        simp only [List.length_cons] at hlen
        omega
      cases hres : op.resolution with
      | error e =>
        simp only [hres] at h
        exact ih _ h hge'
      | ok resp =>
        cases resp with
        | blocks bs =>
          simp only [hres] at h
          cases hp : process_blocks st bs heights with
          | none => simp only [hp] at h; exact absurd h (by simp)
          | some pr =>
            obtain ⟨pres, ph⟩ := pr
            simp only [hp] at h
            cases pres with
            | error e =>
              cases h
              exact absurd hok (by simp)
            | ok u =>
              exact ih _ h hge'
        | blockHeaderHashes hs =>
          simp only [hres] at h
          exact ih _ h hge'
        | nil =>
          simp only [hres] at h
          exact ih _ h hge'

theorem drain_requests_heights_mono (st : Block → StateOutcome) (goal : Nat)
    (pool : List InFlight) (heights : Finset BlockHeight) (dr : DrainResult)
    (h : drain_requests st goal pool heights = some dr) :
    heights ⊆ dr.heights := by
  induction pool generalizing heights with
  | nil =>
    rw [drain_requests] at h
    cases h
    exact Finset.Subset.refl _
  | cons op rest ih =>
    rw [drain_requests] at h
    by_cases hlen : (op :: rest).length ≤ goal
    · rw [if_pos hlen] at h
      cases h
      exact Finset.Subset.refl _
    · rw [if_neg hlen] at h
      cases hres : op.resolution with
      | error e =>
        simp only [hres] at h
        exact ih _ h
      | ok resp =>
        cases resp with
        | blocks bs =>
          simp only [hres] at h
          cases hp : process_blocks st bs heights with
          | none => simp only [hp] at h; exact absurd h (by simp)
          | some pr =>
            obtain ⟨pres, ph⟩ := pr
            simp only [hp] at h
            cases pres with
            | error e =>
              cases h
              exact process_blocks_heights_mono st bs heights _ _ hp
            | ok u =>
              exact (process_blocks_heights_mono st bs heights _ _ hp).trans (ih _ h)
        | blockHeaderHashes hs =>
          simp only [hres] at h
          exact ih _ h
        | nil =>
          simp only [hres] at h
          exact ih _ h

theorem drain_requests_all_errors (st : Block → StateOutcome) (goal : Nat)
    (pool : List InFlight) (heights : Finset BlockHeight)
    (herr : ∀ op ∈ pool, ∃ e, op.resolution = .error e) :
    drain_requests st goal pool heights =
      some ⟨.ok (), pool.drop (pool.length - goal), heights⟩ := by
  induction pool with
  | nil => rw [drain_requests]; simp
  | cons op rest ih =>
    rw [drain_requests]
    by_cases hlen : (op :: rest).length ≤ goal
    · rw [if_pos hlen]
      have h0 : (op :: rest).length - goal = 0 := by omega
      rw [h0, List.drop_zero]
    · rw [if_neg hlen]
      obtain ⟨e, he⟩ := herr op (List.mem_cons_self op rest)
      simp only [he]
      rw [ih (fun op' h' => herr op' (List.mem_cons_of_mem _ h'))]
      have h1 : (op :: rest).length - goal = (rest.length - goal) + 1 := by
        simp only [List.length_cons] at hlen ⊢
        omega
      rw [h1, List.drop_succ_cons]

theorem runStep_ok_spec (d : Except Error Response)
    (issue : List BlockHeaderHash → Except Error (Except Error Response))
    (st : Block → StateOutcome) (c c' : Core)
    (h : runStep d issue st c = .ok c') :
    ∃ hashes t, d = .ok (.blockHeaderHashes hashes) ∧
      hashes.getLast? = some t ∧
      c'.tip = t ∧
      c'.requested_block_heights = c.requested_block_heights + hashes.length ∧
      c.downloaded_block_heights ⊆ c'.downloaded_block_heights := by
  cases d with
  | error e => simp [runStep] at h
  | ok resp =>
    cases resp with
    | blocks bs => simp [runStep] at h
    | nil => simp [runStep] at h
    | blockHeaderHashes hashes =>
      simp only [runStep] at h
      cases hlast : hashes.getLast? with
      | none => simp only [hlast] at h; exact absurd h (by simp)
      | some t =>
        simp only [hlast] at h
        cases hreq : request_blocks issue hashes (coreAfterDiscovery c hashes t) with
        | error e => simp only [hreq] at h; exact absurd h (by simp)
        | ok c2 =>
          simp only [hreq] at h
          cases hdr : drain_requests st 300 c2.block_requests c2.downloaded_block_heights with
          | none => simp only [hdr] at h; exact absurd h (by simp)
          | some dr =>
            simp only [hdr] at h
            cases hres : dr.res with
            | error e => simp only [hres] at h; exact absurd h (by simp)
            | ok u =>
              simp only [hres] at h
              obtain ⟨news, hbr, hmap, htip, hrq, hdl⟩ :=
                request_blocks_go_ok issue (chunksOf 10 hashes) _ _ hreq
              cases h
              refine ⟨hashes, t, rfl, hlast, ?_, ?_, ?_⟩
              · show c2.tip = t
                rw [htip]
                rfl
              · show c2.requested_block_heights = c.requested_block_heights + hashes.length
                rw [hrq]
                rfl
              · show c.downloaded_block_heights ⊆ dr.heights
                have hmono := drain_requests_heights_mono st 300 _ _ _ hdr
                rw [hdl] at hmono
                exact hmono

theorem runFinal_finished_spec (st : Block → StateOutcome) (c c' : Core)
    (bs : List (List BlockHeaderHash)) (h : runFinal st c = .finished c' bs) :
    bs = [] ∧ c'.requested_block_heights = c.requested_block_heights ∧
      c'.tip = c.tip ∧
      c.downloaded_block_heights ⊆ c'.downloaded_block_heights := by
  simp only [runFinal] at h
  cases hdr : drain_requests st 0 c.block_requests c.downloaded_block_heights with
  | none => simp only [hdr] at h; exact absurd h (by simp)
  | some dr =>
    simp only [hdr] at h
    cases hres : dr.res with
    | error e => simp only [hres] at h; exact absurd h (by simp)
    | ok u =>
      simp only [hres] at h
      cases h
      exact ⟨rfl, rfl, rfl, drain_requests_heights_mono st 0 _ _ _ hdr⟩

theorem runLoop_not_lt (issue : List BlockHeaderHash → Except Error (Except Error Response))
    (st : Block → StateOutcome) (envs : List (Except Error Response)) (c : Core)
    (hge : ¬ c.requested_block_heights < 700000) :
    runLoop issue st envs c = runFinal st c := by
  cases envs with
  | nil => rw [runLoop]; exact if_neg hge
  | cons d rest => rw [runLoop]; exact if_neg hge

theorem runLoop_finished_spec
    (issue : List BlockHeaderHash → Except Error (Except Error Response))
    (st : Block → StateOutcome) (envs : List (Except Error Response))
    (c c' : Core) (bs : List (List BlockHeaderHash))
    (h : runLoop issue st envs c = .finished c' bs) :
    c'.requested_block_heights = c.requested_block_heights + (bs.map List.length).sum ∧
    700000 ≤ c'.requested_block_heights ∧
    (c.requested_block_heights < 700000 →
      ∃ last, bs.getLast? = some last ∧
        c'.requested_block_heights < 700000 + last.length) ∧
    (c'.tip = c.tip ∨ ∃ b ∈ bs, b.getLast? = some c'.tip) ∧
    c.downloaded_block_heights ⊆ c'.downloaded_block_heights ∧
    (700000 ≤ c.requested_block_heights → bs = []) := by
  induction envs generalizing c bs with
  | nil =>
    by_cases hlt : c.requested_block_heights < 700000
    · rw [runLoop, if_pos hlt] at h
      exact absurd h (by simp)
    · rw [runLoop_not_lt issue st [] c hlt] at h
      obtain ⟨hbs, hrq, htip, hdl⟩ := runFinal_finished_spec st c c' bs h
      subst hbs
      exact ⟨by simp [hrq], by omega, fun hc => absurd hc hlt, Or.inl htip, hdl,
        fun _ => rfl⟩
  | cons d rest ih =>
    by_cases hlt : c.requested_block_heights < 700000
    · rw [runLoop, if_pos hlt] at h
      cases hstep : runStep d issue st c with
      | panicked => simp only [hstep] at h; exact absurd h (by simp)
      | fatal e => simp only [hstep] at h; exact absurd h (by simp)
      | ok c1 =>
        simp only [hstep] at h
        cases hrl : runLoop issue st rest c1 with
        | fatal e => simp only [hrl] at h; exact absurd h (by simp)
        | panicked => simp only [hrl] at h; exact absurd h (by simp)
        | outOfEnv cf bsf => simp only [hrl] at h; exact absurd h (by simp)
        | finished cf bsf =>
          simp only [hrl] at h
          cases h
          obtain ⟨hashes, t, hd, hlast, htip1, hrq1, hdl1⟩ :=
            runStep_ok_spec d issue st c c1 hstep
          obtain ⟨ih1, ih2, ih3, ih4, ih5, ih6⟩ := ih c1 bsf hrl
          subst hd
          have hbatch : discBatch (Except.ok (Response.blockHeaderHashes hashes)) = hashes :=
            rfl
          refine ⟨?_, ih2, ?_, ?_, hdl1.trans ih5, fun hge => absurd hlt (by omega)⟩
          · rw [hbatch, List.map_cons, List.sum_cons, ih1, hrq1]
            omega
          · intro _
            by_cases hlt1 : c1.requested_block_heights < 700000
            · obtain ⟨last, hl1, hl2⟩ := ih3 hlt1
              cases bsf with
              | nil => simp at hl1
              | cons b bl =>
                refine ⟨last, ?_, hl2⟩
                rw [hbatch, List.getLast?_cons_cons]
                exact hl1
            · have hbsf : bsf = [] := ih6 (by omega)
              subst hbsf
              refine ⟨hashes, by simp [hbatch], ?_⟩
              simp only [List.map_nil, List.sum_nil, Nat.add_zero] at ih1
              omega
          · rcases ih4 with h4 | ⟨b, hb1, hb2⟩
            · right
              refine ⟨hashes, by simp [hbatch], ?_⟩
              rw [h4, htip1]
              exact hlast
            · right
              exact ⟨b, List.mem_cons_of_mem _ hb1, hb2⟩
    · rw [runLoop_not_lt issue st (d :: rest) c hlt] at h
      obtain ⟨hbs, hrq, htip, hdl⟩ := runFinal_finished_spec st c c' bs h
      subst hbs
      exact ⟨by simp [hrq], by omega, fun hc => absurd hc hlt, Or.inl htip, hdl,
        fun _ => rfl⟩

theorem runStep_envW_eval :
    runStep (.ok (.blockHeaderHashes [GENESIS])) issueW stWOk coreNearGoalW = .ok cStepW := by
  simp [runStep, request_blocks, request_blocks_go, chunksOf, coreAfterDiscovery,
    drain_requests, issueW, stWOk, coreNearGoalW, initialCore, cStepW]

theorem runLoop_envW_eval :
    runLoop issueW stWOk envW coreNearGoalW = .finished cFinalW [[GENESIS]] := by
  simp [runLoop, runStep, runFinal, request_blocks, request_blocks_go, chunksOf,
    coreAfterDiscovery, drain_requests, discBatch, issueW, stWOk, envW,
    coreNearGoalW, initialCore, cFinalW]

/-! ### Claim theorems -/

/-- **C2.** After `drain_requests(goal)` returns successfully the in-flight
pool size is at most `goal`; `drain_requests` never adds entries to the pool
(the final pool is a suffix of the initial one, so it is no longer); and if
the pool holds `N ≥ goal` operations on entry, exactly `N - goal` operations
are resolved and removed, leaving exactly `goal`. -/
theorem drain_requests_backpressure (st : Block → StateOutcome) (goal : Nat)
    (pool : List InFlight) (heights : Finset BlockHeight) (dr : DrainResult)
    (h : drain_requests st goal pool heights = some dr) :
    (dr.res = .ok () → dr.pool.length ≤ goal) ∧
    dr.pool <:+ pool ∧
    dr.pool.length ≤ pool.length ∧
    (dr.res = .ok () → goal ≤ pool.length →
      dr.pool.length = goal ∧
      pool.length - dr.pool.length = pool.length - goal) :=
  ⟨fun hok => drain_requests_ok_length st goal pool heights dr h hok,
   drain_requests_suffix st goal pool heights dr h,
   (drain_requests_suffix st goal pool heights dr h).length_le,
   fun hok hge =>
     ⟨drain_requests_ok_exact st goal pool heights dr h hok hge,
      by rw [drain_requests_ok_exact st goal pool heights dr h hok hge]⟩⟩

set_option maxRecDepth 4000 in
/-- **C2 witness**: the spec's scenario — a pool of 305 operations drained
to goal 300 resolves exactly 5 and leaves exactly 300. -/
theorem drain_requests_backpressure_witness :
    (List.replicate 300 opErrW).length = 300 ∧
    (List.replicate 305 opErrW).length - (List.replicate 300 opErrW).length =
      (List.replicate 305 opErrW).length - 300 :=
  (drain_requests_backpressure stWOk 300 (List.replicate 305 opErrW) ∅
      ⟨.ok (), List.replicate 300 opErrW, ∅⟩ rfl).2.2.2 rfl
    (by simp)

/-- **C4.** Requesting `K` hashes issues exactly `⌈K / 10⌉` fetches, each
covering at most 10 hashes, together covering all `K` hashes exactly once
(their concatenation, in order, is the original hash list), and each issued
fetch is appended to the in-flight pool. -/
theorem request_blocks_chunking
    (issue : List BlockHeaderHash → Except Error (Except Error Response))
    (hashes : List BlockHeaderHash) (c c' : Core)
    (h : request_blocks issue hashes c = .ok c') :
    ∃ news : List InFlight,
      c'.block_requests = c.block_requests ++ news ∧
      news.map InFlight.requestedHashes = chunksOf 10 hashes ∧
      news.length = (hashes.length + 9) / 10 ∧
      (∀ op ∈ news, op.requestedHashes.length ≤ 10) ∧
      (news.map InFlight.requestedHashes).flatten = hashes := by
  obtain ⟨news, h1, h2, h3, h4, h5⟩ :=
    request_blocks_go_ok issue (chunksOf 10 hashes) c c' h
  refine ⟨news, h1, h2, ?_, ?_, ?_⟩
  · have hlen := congrArg List.length h2
    rw [List.length_map] at hlen
    rw [hlen, chunksOf_length 10 hashes (by omega)]
    omega
  · intro op hop
    exact chunksOf_mem_length 10 hashes op.requestedHashes
      (h2 ▸ List.mem_map_of_mem InFlight.requestedHashes hop)
  · rw [h2]
    exact chunksOf_flatten 10 hashes (by omega)

/-- **C4 witness**: the spec's scenario — 25 discovered hashes produce
exactly 3 fetch chunks. -/
theorem request_blocks_chunking_witness :
    ∃ news : List InFlight,
      c4W.block_requests = initialCore.block_requests ++ news ∧
      news.map InFlight.requestedHashes = chunksOf 10 (List.replicate 25 GENESIS) ∧
      news.length = ((List.replicate 25 GENESIS).length + 9) / 10 ∧
      (∀ op ∈ news, op.requestedHashes.length ≤ 10) ∧
      (news.map InFlight.requestedHashes).flatten = List.replicate 25 GENESIS :=
  request_blocks_chunking issueW (List.replicate 25 GENESIS) initialCore c4W
    (by simp [request_blocks, request_blocks_go, chunksOf, issueW, initialCore, c4W,
      List.replicate, List.take_succ_cons, List.drop_succ_cons])

/-- **C5.** When an operation at the head of the pool has resolved with a
fetch error during `drain_requests`, it is removed and the drain continues
with the remaining operations; on a pool where every operation resolved
with an error, the drain returns `Ok(())` (no error is propagated), removes
exactly the above-goal prefix, and the height set is unchanged — the
right-hand sides never consult the state service, so no `AddBlock` command
is issued. -/
theorem drain_requests_fetch_error_drop (st : Block → StateOutcome) (goal : Nat) :
    (∀ (op : InFlight) (rest : List InFlight) (heights : Finset BlockHeight)
        (e : Error),
        op.resolution = .error e →
        goal < (op :: rest).length →
        drain_requests st goal (op :: rest) heights =
          drain_requests st goal rest heights) ∧
    (∀ (pool : List InFlight) (heights : Finset BlockHeight),
        (∀ op ∈ pool, ∃ e, op.resolution = .error e) →
        drain_requests st goal pool heights =
          some ⟨.ok (), pool.drop (pool.length - goal), heights⟩) := by
  constructor
  · intro op rest heights e he hlen
    rw [drain_requests, if_neg (by omega)]
    simp only [he]
  · intro pool heights herr
    exact drain_requests_all_errors st goal pool heights herr

/-- **C5 witness**: a one-element pool whose operation errored drains to
`Ok(())` with the pool emptied and the heights untouched. -/
theorem drain_requests_fetch_error_drop_witness :
    drain_requests stWOk 0 [opErrW] (insert ⟨0⟩ (∅ : Finset BlockHeight)) =
      some ⟨.ok (), [opErrW].drop ([opErrW].length - 0),
        insert ⟨0⟩ (∅ : Finset BlockHeight)⟩ :=
  (drain_requests_fetch_error_drop stWOk 0).2 [opErrW]
    (insert ⟨0⟩ (∅ : Finset BlockHeight))
    (fun op hop => by
      rw [List.mem_singleton] at hop
      subst hop
      exact ⟨"peer disconnect", rfl⟩)

/-- **C6.** A state-service failure (readiness or the `AddBlock` call)
while `drain_requests` commits a downloaded block makes `drain_requests`
return that error (with the height already recorded and the failing
operation already removed); a `drain_requests` error inside a loop
iteration makes the iteration fatal, and a fatal iteration makes the whole
run fatal — the failure is neither retried nor swallowed. -/
theorem state_error_fatal :
    (∀ (st : Block → StateOutcome) (goal : Nat) (hsr : List BlockHeaderHash)
        (b : Block) (ht : BlockHeight) (e : Error) (rest : List InFlight)
        (heights : Finset BlockHeight),
        b.coinbaseHeight = some ht →
        (st b = .readyErr e ∨ st b = .callErr e) →
        goal < (InFlight.mk hsr (.ok (.blocks [b])) :: rest).length →
        drain_requests st goal (InFlight.mk hsr (.ok (.blocks [b])) :: rest) heights =
          some ⟨.error e, rest, insert ht heights⟩) ∧
    (∀ (issue : List BlockHeaderHash → Except Error (Except Error Response))
        (st : Block → StateOutcome) (d : Except Error Response)
        (hashes : List BlockHeaderHash) (t : BlockHeaderHash) (c c2 : Core)
        (dr : DrainResult) (e : Error),
        d = Except.ok (Response.blockHeaderHashes hashes) →
        hashes.getLast? = some t →
        request_blocks issue hashes (coreAfterDiscovery c hashes t) = .ok c2 →
        drain_requests st 300 c2.block_requests c2.downloaded_block_heights = some dr →
        dr.res = .error e →
        runStep d issue st c = .fatal e) ∧
    (∀ (issue : List BlockHeaderHash → Except Error (Except Error Response))
        (st : Block → StateOutcome) (d : Except Error Response)
        (rest : List (Except Error Response)) (c : Core) (e : Error),
        c.requested_block_heights < 700000 →
        runStep d issue st c = .fatal e →
        runLoop issue st (d :: rest) c = .fatal e) := by
  refine ⟨?_, ?_, ?_⟩
  · intro st goal hsr b ht e rest heights hcb hst hlen
    have hlen' : ¬ (InFlight.mk hsr (.ok (.blocks [b])) :: rest).length ≤ goal := by
      omega
    simp only [List.length_cons] at hlen
    rcases hst with h | h <;>
      simp [drain_requests, process_blocks, hcb, h, hlen'] <;>
      omega
  · intro issue st d hashes t c c2 dr e hd hlast hreq hdr hres
    subst hd
    simp only [runStep, hlast, hreq, hdr, hres]
  · intro issue st d rest c e hlt hstep
    rw [runLoop, if_pos hlt]
    simp only [hstep]

/-- **C6 witness**: a pool holding one fetched block whose `AddBlock` call
fails drains to exactly that error, with the height recorded and the
operation removed. -/
theorem state_error_fatal_witness :
    drain_requests stWErr 0
        [InFlight.mk [] (.ok (.blocks [⟨some ⟨7⟩⟩]))] (∅ : Finset BlockHeight) =
      some ⟨.error "commit failed", [], insert ⟨7⟩ (∅ : Finset BlockHeight)⟩ :=
  state_error_fatal.1 stWErr 0 [] ⟨some ⟨7⟩⟩ ⟨7⟩ "commit failed" [] ∅ rfl
    (Or.inr rfl) (by simp)

/-- **C10.** If a block in a successful fetch response has no coinbase
height, `drain_requests` panics (the `unwrap` at `start.rs:224`, modelled
as `none`) instead of skipping the block or surfacing an error. -/
theorem drain_missing_coinbase_panics (st : Block → StateOutcome) (goal : Nat)
    (hsr : List BlockHeaderHash) (b : Block) (bs : List Block)
    (rest : List InFlight) (heights : Finset BlockHeight)
    (hb : b.coinbaseHeight = none)
    (hlen : goal < (InFlight.mk hsr (.ok (.blocks (b :: bs))) :: rest).length) :
    drain_requests st goal (InFlight.mk hsr (.ok (.blocks (b :: bs))) :: rest) heights =
      none := by
  have hlen' : ¬ (InFlight.mk hsr (.ok (.blocks (b :: bs))) :: rest).length ≤ goal := by
    omega
  simp only [List.length_cons] at hlen
  simp [drain_requests, process_blocks, hb, hlen']
  omega

/-- **C10 witness**: a single fetched block without a coinbase height makes
the drain panic. -/
theorem drain_missing_coinbase_panics_witness :
    drain_requests stWOk 0
        [InFlight.mk [] (.ok (.blocks [⟨none⟩]))] (∅ : Finset BlockHeight) = none :=
  drain_missing_coinbase_panics stWOk 0 [] ⟨none⟩ [] [] ∅ rfl (by simp)

/-- **C1.** The active phase issues a discovery call only while
`requested_block_heights < 700000`: at the first point where the counter is
`≥ 700000` the run ignores any remaining discovery environment (no further
call is consumed), and when the run finishes, the counter is at least
700000 but exceeds it by less than the size of the final discovery batch
(so the overshoot is at most one batch). -/
theorem run_termination_gate
    (issue : List BlockHeaderHash → Except Error (Except Error Response))
    (st : Block → StateOutcome) :
    (∀ envs c, 700000 ≤ c.requested_block_heights →
        runLoop issue st envs c = runLoop issue st [] c) ∧
    (∀ envs c c' bs, runLoop issue st envs c = .finished c' bs →
        700000 ≤ c'.requested_block_heights ∧
        (c.requested_block_heights < 700000 →
          ∃ last, bs.getLast? = some last ∧
            c'.requested_block_heights < 700000 + last.length)) := by
  constructor
  · intro envs c hge
    rw [runLoop_not_lt issue st envs c (by omega),
        runLoop_not_lt issue st [] c (by omega)]
  · intro envs c c' bs h
    obtain ⟨_, h2, h3, _, _, _⟩ := runLoop_finished_spec issue st envs c c' bs h
    exact ⟨h2, h3⟩

/-- **C1 witness**: starting one hash below the gate, one single-hash batch
finishes the active phase with the counter at exactly 700000 — within one
batch of the target. -/
theorem run_termination_gate_witness :
    700000 ≤ cFinalW.requested_block_heights ∧
    ∃ last, ([[GENESIS]] : List (List BlockHeaderHash)).getLast? = some last ∧
      cFinalW.requested_block_heights < 700000 + last.length := by
  have h := (run_termination_gate issueW stWOk).2 envW coreNearGoalW cFinalW
    [[GENESIS]] runLoop_envW_eval
  exact ⟨h.1, h.2 (by simp [coreNearGoalW, initialCore])⟩

/-- **C3.** After a loop iteration whose discovery call returned
`[h1..hn]`, the tip equals `hn`; and across a whole run, the final tip is
either the initial tip (the `GENESIS` constant set by `StartCmd::start`) or
the last hash of one of the discovery batches returned by the network —
never an invented hash. -/
theorem run_tip_advances
    (issue : List BlockHeaderHash → Except Error (Except Error Response))
    (st : Block → StateOutcome) :
    (∀ hashes c c',
        runStep (.ok (.blockHeaderHashes hashes)) issue st c = .ok c' →
        ∃ t, hashes.getLast? = some t ∧ c'.tip = t) ∧
    (∀ envs c c' bs, runLoop issue st envs c = .finished c' bs →
        c'.tip = c.tip ∨ ∃ b ∈ bs, b.getLast? = some c'.tip) := by
  constructor
  · intro hashes c c' h
    obtain ⟨hs2, t, hd, hlast, htip, _, _⟩ :=
      runStep_ok_spec (.ok (.blockHeaderHashes hashes)) issue st c c' h
    simp only [Except.ok.injEq, Response.blockHeaderHashes.injEq] at hd
    subst hd
    exact ⟨t, hlast, htip⟩
  · intro envs c c' bs h
    exact (runLoop_finished_spec issue st envs c c' bs h).2.2.2.1

/-- **C3 witness**: one step on the batch `[GENESIS]` sets the tip to the
batch's last hash. -/
theorem run_tip_advances_witness :
    ∃ t, ([GENESIS] : List BlockHeaderHash).getLast? = some t ∧ cStepW.tip = t :=
  (run_tip_advances issueW stWOk).1 [GENESIS] coreNearGoalW cStepW runStep_envW_eval

/-- **C7.** When a run finishes, `requested_block_heights` equals its
initial value plus the sum of the sizes of all discovery batches consumed
(so from the initial counter 0, it is exactly the sum of the batch sizes),
and no loop iteration ever decreases the counter. -/
theorem run_counter_monotone
    (issue : List BlockHeaderHash → Except Error (Except Error Response))
    (st : Block → StateOutcome) :
    (∀ envs c c' bs, runLoop issue st envs c = .finished c' bs →
        c'.requested_block_heights =
          c.requested_block_heights + (bs.map List.length).sum) ∧
    (∀ d c c', runStep d issue st c = .ok c' →
        c.requested_block_heights ≤ c'.requested_block_heights) := by
  constructor
  · intro envs c c' bs h
    exact (runLoop_finished_spec issue st envs c c' bs h).1
  · intro d c c' h
    obtain ⟨hashes, t, _, _, _, hrq, _⟩ := runStep_ok_spec d issue st c c' h
    omega

/-- **C7 witness**: across the one-batch run, the counter ends at
699999 + 1 — the initial value plus the consumed batch's size. -/
theorem run_counter_monotone_witness :
    cFinalW.requested_block_heights =
      coreNearGoalW.requested_block_heights +
        (([[GENESIS]] : List (List BlockHeaderHash)).map List.length).sum :=
  (run_counter_monotone issueW stWOk).1 envW coreNearGoalW cFinalW [[GENESIS]]
    runLoop_envW_eval

/-- **C8.** `downloaded_block_heights` only grows: the genesis height 0 is
a member before any network request (it is inserted by `StartCmd::start`),
every drain and every loop iteration can only extend the set, and
re-inserting a present height leaves the set — contents and size —
unchanged. -/
theorem downloaded_heights_growth :
    (⟨0⟩ : BlockHeight) ∈ initialCore.downloaded_block_heights ∧
    (∀ (st : Block → StateOutcome) (goal : Nat) (pool : List InFlight)
        (heights : Finset BlockHeight) (dr : DrainResult),
        drain_requests st goal pool heights = some dr → heights ⊆ dr.heights) ∧
    (∀ (ht : BlockHeight) (s : Finset BlockHeight),
        insert ht (insert ht s) = insert ht s ∧
        (insert ht (insert ht s)).card = (insert ht s).card) ∧
    (∀ (d : Except Error Response)
        (issue : List BlockHeaderHash → Except Error (Except Error Response))
        (st : Block → StateOutcome) (c c' : Core),
        runStep d issue st c = .ok c' →
        c.downloaded_block_heights ⊆ c'.downloaded_block_heights) ∧
    (∀ (issue : List BlockHeaderHash → Except Error (Except Error Response))
        (st : Block → StateOutcome) (envs : List (Except Error Response))
        (c c' : Core) (bs : List (List BlockHeaderHash)),
        runLoop issue st envs c = .finished c' bs →
        c.downloaded_block_heights ⊆ c'.downloaded_block_heights) := by
  refine ⟨?_, ?_, ?_, ?_, ?_⟩
  · simp [initialCore]
  · intro st goal pool heights dr h
    exact drain_requests_heights_mono st goal pool heights dr h
  · intro ht s
    exact ⟨Finset.insert_idem ht s, by rw [Finset.insert_idem]⟩
  · intro d issue st c c' h
    obtain ⟨hashes, t, _, _, _, _, hdl⟩ := runStep_ok_spec d issue st c c' h
    exact hdl
  · intro issue st envs c c' bs h
    exact (runLoop_finished_spec issue st envs c c' bs h).2.2.2.2.1

/-- **C8 witness**: draining a pool with one fetched block at height 5
extends the height set `{0}` (it is a subset of the result). -/
theorem downloaded_heights_growth_witness :
    (insert ⟨0⟩ (∅ : Finset BlockHeight)) ⊆
      (DrainResult.mk (.ok ()) [] (insert ⟨5⟩ (insert ⟨0⟩ ∅))).heights :=
  downloaded_heights_growth.2.1 stWOk 0
    [InFlight.mk [] (.ok (.blocks [⟨some ⟨5⟩⟩]))] (insert ⟨0⟩ ∅)
    ⟨.ok (), [], insert ⟨5⟩ (insert ⟨0⟩ ∅)⟩
    (by simp [drain_requests, process_blocks, stWOk])

/-- **C9.** If a discovery call returns an empty hash list, the engine
panics on `hashes.last().unwrap()` (`start.rs:152`): the loop body and
hence the whole run end in the `panicked` outcome, not in an error
return. -/
theorem run_empty_discovery_panics
    (issue : List BlockHeaderHash → Except Error (Except Error Response))
    (st : Block → StateOutcome) :
    (∀ c, runStep (.ok (.blockHeaderHashes [])) issue st c = .panicked) ∧
    (∀ c rest, c.requested_block_heights < 700000 →
        runLoop issue st (.ok (.blockHeaderHashes []) :: rest) c = .panicked) := by
  constructor
  · intro c
    simp [runStep]
  · intro c rest hlt
    rw [runLoop, if_pos hlt]
    simp [runStep]

/-- **C9 witness**: from the initial state, an empty first discovery batch
makes the run panic. -/
theorem run_empty_discovery_panics_witness :
    runLoop issueW stWOk [.ok (.blockHeaderHashes [])] initialCore = .panicked :=
  (run_empty_discovery_panics issueW stWOk).2 initialCore []
    (by simp [initialCore])
